import Mathlib

/-!
Shallow embedding of the poly-bot leader-discovery pipeline.

Each definition below is translated from one function of the Python
source under `src/app/`; the file then proves the frozen claims about
those definitions.  Timestamps are modelled as rationals (seconds since
the epoch), Python floats as `ℚ`, Python `None` as `Option.none`, Python
dicts as association lists that preserve insertion order, and Python
sets as `Finset`/duplicate-free lists.
-/

namespace PolyBot

/-! ### Deduplicator (`trade_collector_rtds.py`, class `LruSeen`)

`LruSeen` keeps a deque of the last `maxlen` tokens plus a set for O(1)
membership.  `add_if_new` returns `False` for a token already tracked;
otherwise it evicts the oldest token once capacity is reached, appends
the new token and returns `True`.  A `popleft` on an empty deque would
raise `IndexError`, which the model signals with `none`. -/

structure LruSeen where
  maxlen : Nat
  dq : List String
  seen : Finset String
deriving DecidableEq

def LruSeen.init (maxlen : Nat) : LruSeen :=
  { maxlen := maxlen, dq := [], seen := ∅ }

def add_if_new (s : LruSeen) (token : String) : Option (Bool × LruSeen) :=
  if token ∈ s.seen then
    some (false, s)
  else if s.dq.length = s.maxlen then
    match s.dq with
    | [] => none
    | old :: rest =>
        some (true, { s with dq := rest ++ [token],
                             seen := insert token (s.seen.erase old) })
  else
    some (true, { s with dq := s.dq ++ [token], seen := insert token s.seen })

/-- The representation invariant of `LruSeen`: the membership set holds
exactly the tokens of the deque, the deque is duplicate-free, and it
never outgrows the capacity. -/
def LruInv (s : LruSeen) : Prop :=
  s.seen = s.dq.toFinset ∧ s.dq.Nodup ∧ s.dq.length ≤ s.maxlen

/-- Fold a sequence of `add_if_new` calls, keeping the state (the
`IndexError` case leaves the state untouched; it is unreachable from a
well-formed state of positive capacity). -/
def addSeq (s : LruSeen) : List String → LruSeen
  | [] => s
  | t :: rest =>
      match add_if_new s t with
      | some (_, s2) => addSeq s2 rest
      | none => addSeq s rest

/-! ### RTDS trade records (`trade_collector_rtds.py`)

`extract_trade_minimal` flattens an RTDS message into a record; the
fields used by `make_dedup_token` are modelled here.  Python `str(None)`
is the literal string `"None"`. -/

structure RtdsRec where
  transactionHash : Option String
  timestamp : Option Int
  proxyWallet : Option String
  conditionId : Option String
  side : Option String
  size : Option ℚ
  price : Option ℚ
deriving DecidableEq

def pyStr : Option String → String
  | none => "None"
  | some s => s

def pyStrInt : Option Int → String
  | none => "None"
  | some n => toString n

def pyStrRat : Option ℚ → String
  | none => "None"
  | some q => toString q

/-- `make_dedup_token`: the dedup identity, a `"|"`-join of transaction
hash, trade timestamp, wallet, market, side, size and price. -/
def make_dedup_token (rec : RtdsRec) : String :=
  String.intercalate "|"
    [pyStr rec.transactionHash, pyStrInt rec.timestamp,
     pyStr rec.proxyWallet, pyStr rec.conditionId, pyStr rec.side,
     pyStrRat rec.size, pyStrRat rec.price]

/-- The dedup-and-append step of `RTDSTradeCollector._on_message` (after
JSON decoding and `extract_trade_minimal` succeeded): the record is
appended to the JSONL log only when its token is new. -/
def on_message_write (s : LruSeen) (log : List RtdsRec) (rec : RtdsRec) :
    Option (LruSeen × List RtdsRec) :=
  match add_if_new s (make_dedup_token rec) with
  | none => none
  | some (true, s2) => some (s2, log ++ [rec])
  | some (false, s2) => some (s2, log)

/-! ### v4 batch pipeline (`leader_finder_v4.py`)

Trades come from `state/trades_log.jsonl`; `load_recent_trades` already
guarantees a numeric `timestamp` (milliseconds), the other fields stay
optional.  Python falsiness of a missing or empty wallet string is
modelled by `getWallet`. -/

structure Trade4 where
  proxyWallet : Option String
  size : Option ℚ
  price : Option ℚ
  conditionId : Option String
  timestamp : ℚ
deriving DecidableEq

/-- `t.get("proxyWallet")` followed by the `if not w` falsiness test:
a missing or empty wallet yields `none`. -/
def getWallet (t : Trade4) : Option String :=
  match t.proxyWallet with
  | none => none
  | some w => if w = "" then none else some w

/-- `float(t.get("size") or 0)` / `float(t.get("price") or 0)`. -/
def floatOr0 (x : Option ℚ) : ℚ := x.getD 0

/-- The notional of one trade, `size * price`. -/
def notional (t : Trade4) : ℚ := floatOr0 t.size * floatOr0 t.price

/-- Per-wallet statistics accumulated by `aggregate`: notional volume,
trade count and the set of distinct markets (a duplicate-free list). -/
structure WStats where
  volume : ℚ
  trade_count : Nat
  markets : List String
deriving DecidableEq

def initStats : WStats := { volume := 0, trade_count := 0, markets := [] }

/-- One accumulation step of `aggregate` for a single trade: add the
notional, bump the count, and add the market id to the set when present
(`if cond:` skips a missing or empty conditionId). -/
def bumpStats (s : WStats) (t : Trade4) : WStats :=
  { volume := s.volume + notional t,
    trade_count := s.trade_count + 1,
    markets :=
      match t.conditionId with
      | none => s.markets
      | some c =>
          if c = "" then s.markets
          else if c ∈ s.markets then s.markets else s.markets ++ [c] }

/-- Insertion-ordered association map update, mirroring a Python
`defaultdict`: an existing key is updated in place, a new key is
appended at the end. -/
def updStats (m : List (String × WStats)) (w : String) (t : Trade4) :
    List (String × WStats) :=
  match m with
  | [] => [(w, bumpStats initStats t)]
  | (k, s) :: rest =>
      if k = w then (k, bumpStats s t) :: rest
      else (k, s) :: updStats rest w t

/-- Lookup in the per-wallet stats map. -/
def findStats (m : List (String × WStats)) (w : String) : Option WStats :=
  match m with
  | [] => none
  | (k, s) :: rest => if k = w then some s else findStats rest w

/-- One loop iteration of `aggregate`: trades without a usable wallet
are skipped. -/
def aggStep (m : List (String × WStats)) (t : Trade4) :
    List (String × WStats) :=
  match getWallet t with
  | none => m
  | some w => updStats m w t

/-- `aggregate(trades)` of `leader_finder_v4.py`. -/
def aggregate (trades : List Trade4) : List (String × WStats) :=
  trades.foldl aggStep []

/-- The trades of the list belonging to wallet `w`. -/
def walletTrades (trades : List Trade4) (w : String) : List Trade4 :=
  trades.filter (fun t => getWallet t = some w)

/-- v4 whale thresholds: volume ≥ 50000, trades ≥ 5, markets ≥ 2. -/
def isWhale4 (s : WStats) : Bool :=
  decide (50000 ≤ s.volume) && decide (5 ≤ s.trade_count) &&
    decide (2 ≤ s.markets.length)

/-- v4 qualified-trader thresholds: volume ≥ 1000, trades ≥ 3,
markets ≥ 2. -/
def isTrader4 (s : WStats) : Bool :=
  decide (1000 ≤ s.volume) && decide (3 ≤ s.trade_count) &&
    decide (2 ≤ s.markets.length)

/-- One loop iteration of `select_leaders`: append the wallet to the
whale list, or (elif) to the trader list. -/
def slStep (acc : List String × List String) (p : String × WStats) :
    List String × List String :=
  if isWhale4 p.2 then (acc.1 ++ [p.1], acc.2)
  else if isTrader4 p.2 then (acc.1, acc.2 ++ [p.1])
  else acc

/-- `select_leaders(stats)`: one pass that appends each wallet to the
whale list, or (elif) to the trader list; whales win when non-empty. -/
def select_leaders (stats : List (String × WStats)) : String × List String :=
  let pair := stats.foldl slStep ([], [])
  if pair.1.isEmpty then ("TRADERS", pair.2) else ("WHALES", pair.1)

/-- Spec-side accessor: the accumulated volume of wallet `w`, zero when
the wallet is absent from the stats map. -/
def statVolume (m : List (String × WStats)) (w : String) : ℚ :=
  ((findStats m w).getD initStats).volume

/-- Spec-side accessor: the accumulated trade count of wallet `w`. -/
def statCount (m : List (String × WStats)) (w : String) : Nat :=
  ((findStats m w).getD initStats).trade_count

/-- Lookup with default 0, `copied_state.get(w, 0)`. -/
def csGet (cs : List (String × ℚ)) (w : String) : ℚ :=
  match cs with
  | [] => 0
  | (k, v) :: rest => if k = w then v else csGet rest w

/-- Dict assignment `copied_state[w] = ts`. -/
def csSet (cs : List (String × ℚ)) (w : String) (ts : ℚ) :
    List (String × ℚ) :=
  match cs with
  | [] => [(w, ts)]
  | (k, v) :: rest =>
      if k = w then (k, ts) :: rest else (k, v) :: csSet rest w ts

/-- One loop iteration of `find_copy_candidates`: skip non-leader
wallets, trades older than the 15-minute cutoff, and trades at or below
the wallet's copied-state watermark; otherwise emit the trade and move
the watermark to its (millisecond) timestamp. -/
def fccStep (cutoff15 : ℚ) (leaders : List String)
    (acc : List Trade4 × List (String × ℚ)) (t : Trade4) :
    List Trade4 × List (String × ℚ) :=
  match t.proxyWallet with
  | none => acc
  | some w =>
      if w ∉ leaders then acc
      else
        let tsMs := t.timestamp
        let ts := tsMs / 1000
        if ts < cutoff15 then acc
        else if tsMs ≤ csGet acc.2 w then acc
        else (acc.1 ++ [t], csSet acc.2 w tsMs)

/-- `WINDOW_15M = 15 * 60` seconds. -/
def WINDOW_15M : ℚ := 15 * 60

/-- `find_copy_candidates(trades, leaders, copied_state)` with the
current time made explicit. -/
def find_copy_candidates (now : ℚ) (trades : List Trade4)
    (leaders : List String) (copied : List (String × ℚ)) :
    List Trade4 × List (String × ℚ) :=
  trades.foldl (fccStep (now - WINDOW_15M) leaders) ([], copied)

/-! ### Copy-trader watermark (`copy_trader.py`, `process_leader_trades`)

For one leader the fetched trades are processed oldest-first
(`reversed(trades)`); a trade whose numeric timestamp is at or below the
stored watermark is skipped, otherwise the watermark moves to that
timestamp and the trade is emitted.  A missing or unparseable timestamp
becomes `0`. -/

structure CtTrade where
  timestamp : Option (Option ℚ)
deriving DecidableEq

/-- `float(t.get("timestamp", 0))` with the broad `except` that maps a
parse failure to `0`. -/
def tsNumeric (t : CtTrade) : ℚ :=
  match t.timestamp with
  | none => 0
  | some none => 0
  | some (some q) => q

/-- The oldest-first emission loop over one leader's trades. -/
def ctDiffGo (wm : ℚ) : List CtTrade → List CtTrade × ℚ
  | [] => ([], wm)
  | t :: rest =>
      if tsNumeric t ≤ wm then ctDiffGo wm rest
      else
        let r := ctDiffGo (tsNumeric t) rest
        (t :: r.1, r.2)

/-- Per-leader body of `process_leader_trades`: the API returns trades
newest-first, the loop walks them `reversed`. -/
def process_leader_trades_one (wm : ℚ) (trades : List CtTrade) :
    List CtTrade × ℚ :=
  ctDiffGo wm trades.reverse

/-! ### v2 pipeline (`leader_finder_v2.py`)

Timestamp parsing distinguishes a numeric `timestamp` field (integer
seconds or milliseconds) from the ISO fields `createdAt`/`created_at`.
An ISO string is modelled by its shape after
`fromisoformat(str(v).replace("Z", "+00:00"))`: a `Z` suffix becomes an
explicit zero offset, a bare string stays naive, and `astimezone(utc)`
interprets a naive datetime in the *system local* timezone (offset
`localOff` seconds east of UTC). -/

inductive IsoStr
  | withZ (naive : ℚ)
  | withOffset (naive : ℚ) (off : Int)
  | noTz (naive : ℚ)
  | malformed
deriving DecidableEq

/-- `fromisoformat(...).astimezone(timezone.utc)` as an epoch instant:
`naive` is the wall-clock reading in seconds; an aware datetime
subtracts its offset, a naive one is presumed local time. -/
def isoToUtc (localOff : Int) : IsoStr → Option ℚ
  | IsoStr.withZ naive => some naive
  | IsoStr.withOffset naive off => some (naive - (off : ℚ))
  | IsoStr.noTz naive => some (naive - (localOff : ℚ))
  | IsoStr.malformed => none

def tryIso (localOff : Int) : Option IsoStr → Option ℚ
  | none => none
  | some s => isoToUtc localOff s

structure RawTrade where
  timestamp : Option (Option Int)
  createdAt : Option IsoStr
  created_at : Option IsoStr
  proxyWallet : Option String
  wallet : Option String
  maker : Option String
  taker : Option String
  conditionId : Option String
  size : Option ℚ
  price : Option ℚ
deriving DecidableEq

/-- `parse_trade_datetime_utc`: an `int(...)`-parseable `timestamp`
below `10_000_000_000` is seconds, at or above it milliseconds;
otherwise the ISO fields `createdAt` then `created_at` are tried; a
record with no parseable form yields `None`.  `some (some n)` is a field
`int(...)` accepts, `some none` one it rejects (which falls through to
the ISO branch, as does an empty string). -/
def parse_trade_datetime_utc (localOff : Int) (t : RawTrade) : Option ℚ :=
  match t.timestamp with
  | some (some n) =>
      if n < 10000000000 then some (n : ℚ) else some ((n : ℚ) / 1000)
  | _ =>
      match tryIso localOff t.createdAt with
      | some q => some q
      | none => tryIso localOff t.created_at

/-- Python `a or b` on optional strings (an empty string is falsy). -/
def pyOr (a b : Option String) : Option String :=
  match a with
  | some s => if s = "" then b else some s
  | none => b

/-- `normalize_wallet`: first truthy of `proxyWallet`, `wallet`,
`maker`, `taker`, lower-cased; `None` when all are falsy. -/
def normalize_wallet (t : RawTrade) : Option String :=
  match pyOr t.proxyWallet (pyOr t.wallet (pyOr t.maker t.taker)) with
  | none => none
  | some w => if w = "" then none else some w.toLower

def safe_float (x : Option ℚ) : ℚ := x.getD 0

/-- `compute_usdc_volume`: `size * price`. -/
def compute_usdc_volume (t : RawTrade) : ℚ :=
  safe_float t.size * safe_float t.price

/-- A Gamma market record; only the category matters here. -/
structure Market where
  category : Option String
deriving DecidableEq

/-- `get_category`: `market.get("category") or "—"` — a missing (or
empty) category becomes the sentinel string `"—"`. -/
def get_category (m : Market) : String :=
  match m.category with
  | none => "—"
  | some c => if c = "" then "—" else c

def metaLookup (meta : List (String × Market)) (c : String) : Option Market :=
  match meta with
  | [] => none
  | (k, m) :: rest => if k = c then some m else metaLookup rest c

/-- The admission guard chain of `aggregate_wallets`: a trade
contributes to the stats only when it has a truthy `conditionId` that is
an active market, a normalizable wallet, and a parseable timestamp. -/
def v2_admits (localOff : Int) (meta : List (String × Market))
    (t : RawTrade) : Bool :=
  match t.conditionId with
  | none => false
  | some c =>
      if c = "" then false
      else
        match metaLookup meta c with
        | none => false
        | some _ =>
            match normalize_wallet t with
            | none => false
            | some _ => (parse_trade_datetime_utc localOff t).isSome

/-- A normalized per-wallet entry of `aggregate_wallets` as consumed by
`select_whales` / `select_qualified`. -/
structure V2Entry where
  wallet : String
  volume_usdc : ℚ
  trade_count : Nat
  distinct_markets_count : Nat
  categories : List String
deriving DecidableEq

def ALLOWED_CATEGORIES_STEP2 : List String :=
  ["Politics", "US-current-affairs", "World", "Geopolitics",
   "Sports", "Sport", "Tech"]

/-- Strict whale thresholds of v2: volume ≥ 50000, trades ≥ 20,
distinct markets ≥ 3. -/
def whaleCrit (e : V2Entry) : Bool :=
  decide (50000 ≤ e.volume_usdc) && decide (20 ≤ e.trade_count) &&
    decide (3 ≤ e.distinct_markets_count)

/-- Relaxed qualified thresholds of v2: volume ≥ 1000, trades ≥ 5,
distinct markets ≥ 2. -/
def traderCrit (e : V2Entry) : Bool :=
  decide (1000 ≤ e.volume_usdc) && decide (5 ≤ e.trade_count) &&
    decide (2 ≤ e.distinct_markets_count)

/-- `set(w["categories"]) & ALLOWED_CATEGORIES_STEP2` is non-empty. -/
def catHit (e : V2Entry) : Bool :=
  e.categories.any (fun c => ALLOWED_CATEGORIES_STEP2.contains c)

/-- Stable insertion step for descending sort by volume
(`list.sort(key=volume, reverse=True)` is stable). -/
def insDesc (x : V2Entry) : List V2Entry → List V2Entry
  | [] => [x]
  | y :: rest =>
      if y.volume_usdc ≤ x.volume_usdc then x :: y :: rest
      else y :: insDesc x rest

def sortVolDesc : List V2Entry → List V2Entry
  | [] => []
  | x :: rest => insDesc x (sortVolDesc rest)

/-- `select_whales`: strict filter, then descending volume sort. -/
def select_whales (es : List V2Entry) : List V2Entry :=
  sortVolDesc (es.filter whaleCrit)

/-- `select_qualified`: relaxed thresholds and the category allow-list
gate, then descending volume sort. -/
def select_qualified (es : List V2Entry) : List V2Entry :=
  sortVolDesc (es.filter (fun e => traderCrit e && catHit e))

/-- The classification cascade of `main`: report whales (top 10) and
never run the qualified stage when a whale exists; otherwise report the
qualified traders (top 10). -/
def v2_main_select (es : List V2Entry) : List V2Entry × List V2Entry :=
  let whales := select_whales es
  if whales.isEmpty then ([], (select_qualified es).take 10)
  else (whales.take 10, [])

/-! ### Paginated fetch (`fetch_trades_global_24h`)

Pages of 1000 records at offsets `0, 1000, …, 50000` (the
`TRADES_MAX_OFFSET` ceiling makes 51 page indices).  `pS i` is the page
the server returns at offset `1000*i` when sort/order parameters are
sent, `pU i` the page without them.  The loop keeps the records at or
after the cutoff, stops when the last record of a sorted page is below
the cutoff, and at offset 0 falls back to the unordered scan when the
first record is below the cutoff. -/

def inWin (localOff : Int) (cutoff : ℚ) (r : RawTrade) : Bool :=
  match parse_trade_datetime_utc localOff r with
  | some t => decide (cutoff ≤ t)
  | none => false

/-- `dt_last and dt_last < cutoff` for `dt_last` parsed from
`batch[-1]`. -/
def oldestBelow (localOff : Int) (cutoff : ℚ) (batch : List RawTrade) : Bool :=
  match batch.getLast? with
  | none => false
  | some r =>
      match parse_trade_datetime_utc localOff r with
      | some t => decide (t < cutoff)
      | none => false

/-- `dt_first and dt_first < cutoff` for `dt_first` parsed from
`batch[0]`. -/
def firstBelow (localOff : Int) (cutoff : ℚ) (batch : List RawTrade) : Bool :=
  match batch.head? with
  | none => false
  | some r =>
      match parse_trade_datetime_utc localOff r with
      | some t => decide (t < cutoff)
      | none => false

structure FetchResult where
  collected : List RawTrade
  sortedReq : Nat
  unsortedReq : Nat
  usedFallback : Bool
deriving DecidableEq

/-- The unordered fallback scan (`use_sort = False`): every record is
filtered individually against the cutoff; the loop stops on an empty
page, on the early safety stop (offset ≥ 3000 with nothing recent
collected), or at the max-offset ceiling.  Returns the collected
records and the number of page requests made. -/
def scanU (pU : Nat → List RawTrade) (localOff : Int) (cutoff : ℚ)
    (i : Nat) (acc : List RawTrade) (req : Nat) : List RawTrade × Nat :=
  if h : i ≤ 50 then
    if (pU i).isEmpty then (acc, req + 1)
    else
      if 3 ≤ i ∧ (acc ++ (pU i).filter (inWin localOff cutoff)).isEmpty then
        (acc ++ (pU i).filter (inWin localOff cutoff), req + 1)
      else
        scanU pU localOff cutoff (i + 1)
          (acc ++ (pU i).filter (inWin localOff cutoff)) (req + 1)
  else (acc, req)
termination_by 51 - i
decreasing_by omega

/-- The sorted phase (`use_sort = True`): stop when the oldest (last)
record of a page is below the cutoff; at page 0, when the first record
is below the cutoff, clear the collected list and restart as the
unordered fallback scan. -/
def scanS (pS pU : Nat → List RawTrade) (localOff : Int) (cutoff : ℚ)
    (i : Nat) (acc : List RawTrade) (req : Nat) : FetchResult :=
  if h : i ≤ 50 then
    if (pS i).isEmpty then ⟨acc, req + 1, 0, false⟩
    else
      if oldestBelow localOff cutoff (pS i) then
        ⟨acc ++ (pS i).filter (inWin localOff cutoff), req + 1, 0, false⟩
      else if i = 0 ∧ firstBelow localOff cutoff (pS i) then
        ⟨(scanU pU localOff cutoff 0 [] 0).1, req + 1,
         (scanU pU localOff cutoff 0 [] 0).2, true⟩
      else
        scanS pS pU localOff cutoff (i + 1)
          (acc ++ (pS i).filter (inWin localOff cutoff)) (req + 1)
  else ⟨acc, req, 0, false⟩
termination_by 51 - i
decreasing_by omega

/-- `fetch_trades_global_24h(cutoff)`. -/
def fetch_trades_global_24h (pS pU : Nat → List RawTrade)
    (localOff : Int) (cutoff : ℚ) : FetchResult :=
  scanS pS pU localOff cutoff 0 [] 0

theorem add_if_new_total_inv (s : LruSeen) (token : String)
    (hinv : LruInv s) (hpos : 0 < s.maxlen) :
    ∃ b s2, add_if_new s token = some (b, s2) ∧ LruInv s2 ∧
      s2.maxlen = s.maxlen := by
  obtain ⟨N, dq, seen⟩ := s
  obtain ⟨hset, hnd, hlen⟩ := hinv
  simp only [] at hset hnd hlen hpos
  by_cases hmem : token ∈ seen
  · exact ⟨false, _, by simp [add_if_new, hmem], ⟨hset, hnd, hlen⟩, rfl⟩
  · have htok : token ∉ dq := fun hc => hmem (hset ▸ List.mem_toFinset.mpr hc)
    by_cases hfull : dq.length = N
    · cases dq with
      | nil => simp at hfull; omega
      | cons old rest =>
          have hold : old ∉ rest := (List.nodup_cons.mp hnd).1
          have hndrest : rest.Nodup := (List.nodup_cons.mp hnd).2
          have htokr : token ∉ rest := fun hc => htok (List.mem_cons_of_mem old hc)
          refine ⟨true, ⟨N, rest ++ [token], insert token (seen.erase old)⟩,
            ?_, ⟨?_, ?_, ?_⟩, rfl⟩
          · simp only [add_if_new, if_neg hmem, if_pos hfull]
          · subst hset
            ext x
            simp only [Finset.mem_insert, Finset.mem_erase, List.mem_toFinset,
              List.toFinset_cons, List.mem_append, List.mem_cons,
              List.mem_singleton, List.toFinset_append, Finset.mem_union,
              List.not_mem_nil, or_false]
            constructor
            · rintro (rfl | ⟨hx, (rfl | hxr)⟩)
              · exact Or.inr rfl
              · exact absurd rfl hx
              · exact Or.inl hxr
            · rintro (hxr | rfl)
              · exact Or.inr ⟨fun he => hold (he ▸ hxr), Or.inr hxr⟩
              · exact Or.inl rfl
          · simp [List.nodup_append, hndrest, htokr]
          · simp only [List.length_cons] at hfull
            simp only [List.length_append, List.length_singleton]
            omega
    · refine ⟨true, ⟨N, dq ++ [token], insert token seen⟩,
        ?_, ⟨?_, ?_, ?_⟩, rfl⟩
      · simp only [add_if_new, if_neg hmem, if_neg hfull]
      · subst hset
        ext x
        simp only [Finset.mem_insert, List.mem_toFinset, List.toFinset_append,
          Finset.mem_union, List.mem_append, List.mem_singleton,
          List.toFinset_cons, List.mem_cons]
        tauto
      · simp [List.nodup_append, hnd, htok]
      · simp only [List.length_append, List.length_singleton]
        omega

theorem addSeq_inv (l : List String) (s : LruSeen)
    (hinv : LruInv s) (hpos : 0 < s.maxlen) :
    LruInv (addSeq s l) ∧ (addSeq s l).maxlen = s.maxlen := by
  induction l generalizing s with
  | nil => exact ⟨hinv, rfl⟩
  | cons t rest ih =>
      obtain ⟨b, s2, heq, hinv2, hmax⟩ := add_if_new_total_inv s t hinv hpos
      simp only [addSeq, heq]
      have h := ih s2 hinv2 (hmax ▸ hpos)
      exact ⟨h.1, h.2.trans hmax⟩

/-- A fresh token is accepted: `add_if_new` returns `True`, the token is
now tracked exactly once, and the invariant is preserved. -/
theorem add_if_new_fresh (s : LruSeen) (token : String)
    (hinv : LruInv s) (hpos : 0 < s.maxlen) (hnew : token ∉ s.seen) :
    ∃ s2, add_if_new s token = some (true, s2) ∧ LruInv s2 ∧
      token ∈ s2.seen ∧ s2.dq.count token = 1 ∧ s2.maxlen = s.maxlen := by
  obtain ⟨b, s2, heq, hinv2, hmax⟩ := add_if_new_total_inv s token hinv hpos
  obtain ⟨N, dq, seen⟩ := s
  simp only [] at hnew hpos hmax
  obtain ⟨hset, hnd, hlen⟩ := hinv
  simp only [] at hset hnd hlen
  have htok : token ∉ dq := fun hc => hnew (hset ▸ List.mem_toFinset.mpr hc)
  by_cases hfull : dq.length = N
  · cases dq with
    | nil => simp at hfull; omega
    | cons old rest =>
        have htokr : token ∉ rest := fun hc => htok (List.mem_cons_of_mem old hc)
        refine ⟨⟨N, rest ++ [token], insert token (seen.erase old)⟩,
          by simp only [add_if_new, if_neg hnew, if_pos hfull], ?_, ?_, ?_, rfl⟩
        · have := add_if_new_total_inv ⟨N, old :: rest, seen⟩ token
            ⟨hset, hnd, hlen⟩ hpos
          obtain ⟨b2, s3, heq3, hinv3, _⟩ := this
          have : s3 = ⟨N, rest ++ [token], insert token (seen.erase old)⟩ := by
            rw [show add_if_new ⟨N, old :: rest, seen⟩ token =
              some (true, ⟨N, rest ++ [token], insert token (seen.erase old)⟩) from
              by simp only [add_if_new, if_neg hnew, if_pos hfull]] at heq3
            exact (Prod.mk.injEq _ _ _ _ ▸ Option.some.injEq _ _ ▸ heq3).2.symm
          exact this ▸ hinv3
        · exact Finset.mem_insert_self token _
        · simp only [List.count_append]
          rw [List.count_eq_zero.mpr htokr]
          simp
  · refine ⟨⟨N, dq ++ [token], insert token seen⟩,
      by simp only [add_if_new, if_neg hnew, if_neg hfull], ?_, ?_, ?_, rfl⟩
    · have := add_if_new_total_inv ⟨N, dq, seen⟩ token ⟨hset, hnd, hlen⟩ hpos
      obtain ⟨b2, s3, heq3, hinv3, _⟩ := this
      have : s3 = ⟨N, dq ++ [token], insert token seen⟩ := by
        rw [show add_if_new ⟨N, dq, seen⟩ token =
          some (true, ⟨N, dq ++ [token], insert token seen⟩) from
          by simp only [add_if_new, if_neg hnew, if_neg hfull]] at heq3
        exact (Prod.mk.injEq _ _ _ _ ▸ Option.some.injEq _ _ ▸ heq3).2.symm
      exact this ▸ hinv3
    · exact Finset.mem_insert_self token _
    · simp only [List.count_append]
      rw [List.count_eq_zero.mpr htok]
      simp

/-- A token already tracked is rejected without any state change. -/
theorem add_if_new_dup (s : LruSeen) (token : String) (hmem : token ∈ s.seen) :
    add_if_new s token = some (false, s) := by
  simp [add_if_new, hmem]

/-! ### Watermark diff lemmas (`copy_trader.py`) -/

theorem ctDiffGo_emitted_gt (l : List CtTrade) :
    ∀ (wm : ℚ), ∀ t ∈ (ctDiffGo wm l).1, wm < tsNumeric t := by
  induction l with
  | nil => intro wm t ht; simp [ctDiffGo] at ht
  | cons hd rest ih =>
      intro wm t ht
      by_cases hle : tsNumeric hd ≤ wm
      · rw [ctDiffGo, if_pos hle] at ht
        exact ih wm t ht
      · rw [ctDiffGo, if_neg hle] at ht
        push_neg at hle
        rcases List.mem_cons.mp ht with rfl | hmem
        · exact hle
        · exact lt_trans hle (ih (tsNumeric hd) t hmem)

theorem ctDiffGo_wm_foldl (l : List CtTrade) :
    ∀ (wm : ℚ), (ctDiffGo wm l).2 =
      ((ctDiffGo wm l).1.map tsNumeric).foldl max wm := by
  induction l with
  | nil => intro wm; simp [ctDiffGo]
  | cons hd rest ih =>
      intro wm
      by_cases hle : tsNumeric hd ≤ wm
      · rw [ctDiffGo, if_pos hle]
        exact ih wm
      · rw [ctDiffGo, if_neg hle]
        push_neg at hle
        simp only [List.map_cons, List.foldl_cons]
        rw [max_eq_right hle.le]
        exact ih (tsNumeric hd)

theorem foldl_max_self_le (l : List ℚ) : ∀ a : ℚ, a ≤ l.foldl max a := by
  induction l with
  | nil => intro a; simp
  | cons b rest ih =>
      intro a
      simp only [List.foldl_cons]
      exact le_trans (le_max_left a b) (ih (max a b))

theorem foldl_max_mem_le (l : List ℚ) :
    ∀ a : ℚ, ∀ x ∈ l, x ≤ l.foldl max a := by
  induction l with
  | nil => intro a x hx; simp at hx
  | cons b rest ih =>
      intro a x hx
      simp only [List.foldl_cons]
      rcases List.mem_cons.mp hx with rfl | hmem
      · exact le_trans (le_max_right a x) (foldl_max_self_le rest (max a x))
      · exact ih (max a b) x hmem

theorem foldl_max_eq_or_mem (l : List ℚ) :
    ∀ a : ℚ, l.foldl max a = a ∨ l.foldl max a ∈ l := by
  induction l with
  | nil => intro a; exact Or.inl rfl
  | cons b rest ih =>
      intro a
      simp only [List.foldl_cons]
      rcases ih (max a b) with heq | hmem
      · rw [heq]
        rcases le_total a b with hab | hba
        · exact Or.inr (by rw [max_eq_right hab]; exact List.mem_cons_self b rest)
        · exact Or.inl (max_eq_left hba)
      · exact Or.inr (List.mem_cons_of_mem b hmem)

/-- Claim C2: the watermark diff of `process_leader_trades` emits only
trades with timestamp strictly above the wallet's current watermark,
advances the watermark to the maximum emitted timestamp (leaving it
unchanged when nothing is emitted), never rewinds it, and on the
round-trip scenario t=10 then t=20 then t=15 the three calls return
[T1], [T2] and [] with watermarks 10, 20, 20. -/
theorem watermark_diff_c2 (wm : ℚ) (trades : List CtTrade) :
    (∀ t ∈ (process_leader_trades_one wm trades).1, wm < tsNumeric t) ∧
    (process_leader_trades_one wm trades).2 =
      ((process_leader_trades_one wm trades).1.map tsNumeric).foldl max wm ∧
    wm ≤ (process_leader_trades_one wm trades).2 ∧
    ((process_leader_trades_one wm trades).1 ≠ [] →
      (process_leader_trades_one wm trades).2 ∈
        (process_leader_trades_one wm trades).1.map tsNumeric ∧
      ∀ x ∈ (process_leader_trades_one wm trades).1.map tsNumeric,
        x ≤ (process_leader_trades_one wm trades).2) ∧
    process_leader_trades_one 0 [⟨some (some 10)⟩] = ([⟨some (some 10)⟩], 10) ∧
    process_leader_trades_one 10 [⟨some (some 20)⟩] = ([⟨some (some 20)⟩], 20) ∧
    process_leader_trades_one 20 [⟨some (some 15)⟩] = ([], 20) := by
  have hgt : ∀ t ∈ (process_leader_trades_one wm trades).1, wm < tsNumeric t :=
    ctDiffGo_emitted_gt trades.reverse wm
  have hfold : (process_leader_trades_one wm trades).2 =
      ((process_leader_trades_one wm trades).1.map tsNumeric).foldl max wm :=
    ctDiffGo_wm_foldl trades.reverse wm
  refine ⟨hgt, hfold, ?_, ?_, by decide, by decide, by decide⟩
  · rw [hfold]
    exact foldl_max_self_le _ wm
  · intro hne
    constructor
    · rcases foldl_max_eq_or_mem
        ((process_leader_trades_one wm trades).1.map tsNumeric) wm with heq | hmem
      · exfalso
        obtain ⟨t, ht⟩ := List.exists_mem_of_ne_nil _ hne
        have h1 : wm < tsNumeric t := hgt t ht
        have h2 : tsNumeric t ≤
            ((process_leader_trades_one wm trades).1.map tsNumeric).foldl max wm :=
          foldl_max_mem_le _ wm _ (List.mem_map_of_mem tsNumeric ht)
        rw [heq] at h2
        exact absurd h2 (not_le.mpr h1)
      · rw [hfold]
        exact hmem
    · intro x hx
      rw [hfold]
      exact foldl_max_mem_le _ wm x hx

theorem watermark_diff_c2_witness :
    (0 : ℚ) < tsNumeric ⟨some (some 10)⟩ :=
  (watermark_diff_c2 0 [⟨some (some 10)⟩]).1 ⟨some (some 10)⟩ (by decide)

/-! ### Copy-candidate recency gate (`leader_finder_v4.py`) -/

theorem fccStep_cases (cut : ℚ) (leaders : List String)
    (acc : List Trade4 × List (String × ℚ)) (t : Trade4) :
    fccStep cut leaders acc t = acc ∨
      (¬ t.timestamp / 1000 < cut ∧
        ∃ w, fccStep cut leaders acc t =
          (acc.1 ++ [t], csSet acc.2 w t.timestamp)) := by
  rw [fccStep]
  cases hw : t.proxyWallet with
  | none => exact Or.inl rfl
  | some w =>
      simp only []
      split_ifs
      all_goals first
        | exact Or.inl rfl
        | exact Or.inr ⟨by assumption, w, rfl⟩

theorem fcc_foldl_inwin (cut : ℚ) (leaders : List String)
    (trades : List Trade4) :
    ∀ (acc : List Trade4) (cs : List (String × ℚ)),
      (∀ t ∈ acc, cut ≤ t.timestamp / 1000) →
      ∀ t ∈ (trades.foldl (fccStep cut leaders) (acc, cs)).1,
        cut ≤ t.timestamp / 1000 := by
  induction trades with
  | nil => intro acc cs hacc t ht; exact hacc t ht
  | cons hd rest ih =>
      intro acc cs hacc t ht
      simp only [List.foldl_cons] at ht
      rcases fccStep_cases cut leaders (acc, cs) hd with heq | ⟨hts, w, heq⟩
      · rw [heq] at ht
        exact ih acc cs hacc t ht
      · rw [heq] at ht
        refine ih (acc ++ [hd]) (csSet cs w hd.timestamp) ?_ t ht
        intro u hu
        rcases List.mem_append.mp hu with hu | hu
        · exact hacc u hu
        · rw [List.mem_singleton.mp hu]
          exact le_of_not_lt hts

/-- Claim C10: `find_copy_candidates` applies a 15-minute recency gate:
every returned candidate is at most 15 minutes old, and a trade older
than `now - 15min` leaves the accumulated candidates and the
copied-state watermarks untouched, whatever its wallet or the stored
watermark. -/
theorem copy_recency_gate_c10 (now : ℚ) (trades : List Trade4)
    (leaders : List String) (copied : List (String × ℚ)) :
    (∀ t ∈ (find_copy_candidates now trades leaders copied).1,
        now - WINDOW_15M ≤ t.timestamp / 1000) ∧
    (∀ (acc : List Trade4) (cs : List (String × ℚ)) (t : Trade4),
        t.timestamp / 1000 < now - WINDOW_15M →
        fccStep (now - WINDOW_15M) leaders (acc, cs) t = (acc, cs)) := by
  constructor
  · intro t ht
    exact fcc_foldl_inwin (now - WINDOW_15M) leaders trades [] copied
      (by intro u hu; simp at hu) t ht
  · intro acc cs t hts
    rcases fccStep_cases (now - WINDOW_15M) leaders (acc, cs) t with heq |
      ⟨hnot, _, _⟩
    · exact heq
    · exact absurd hts hnot

theorem copy_recency_gate_c10_witness :
    fccStep (1000 - WINDOW_15M) ["w"] ([], [])
      ⟨some "w", none, none, none, 50000⟩ = ([], []) :=
  (copy_recency_gate_c10 1000 [] ["w"] []).2 [] []
    ⟨some "w", none, none, none, 50000⟩ (by norm_num [WINDOW_15M])

/-! ### Aggregation lemmas (`leader_finder_v4.py`, `aggregate`) -/

theorem findStats_updStats_self (m : List (String × WStats)) (w : String)
    (t : Trade4) :
    findStats (updStats m w t) w =
      some (bumpStats ((findStats m w).getD initStats) t) := by
  induction m with
  | nil => simp [updStats, findStats]
  | cons p rest ih =>
      obtain ⟨k, s⟩ := p
      by_cases hk : k = w
      · subst hk
        simp [updStats, findStats]
      · simp [updStats, findStats, hk, ih]

theorem findStats_updStats_other (m : List (String × WStats))
    (w w' : String) (t : Trade4) (hne : w' ≠ w) :
    findStats (updStats m w t) w' = findStats m w' := by
  have hne2 : ¬ (w = w') := fun hc => hne hc.symm
  induction m with
  | nil => simp [updStats, findStats, hne2]
  | cons p rest ih =>
      obtain ⟨k, s⟩ := p
      by_cases hk : k = w
      · subst hk
        simp [updStats, findStats, hne2]
      · simp [updStats, findStats, hk, ih]

theorem aggregate_foldl_volume (ts : List Trade4) :
    ∀ (m : List (String × WStats)) (w : String),
      statVolume (ts.foldl aggStep m) w =
        statVolume m w + ((walletTrades ts w).map notional).sum := by
  induction ts with
  | nil => intro m w; simp [walletTrades]
  | cons t rest ih =>
      intro m w
      simp only [List.foldl_cons]
      rw [ih]
      cases hgw : getWallet t with
      | none =>
          have h1 : aggStep m t = m := by simp [aggStep, hgw]
          have h2 : walletTrades (t :: rest) w = walletTrades rest w := by
            simp [walletTrades, List.filter_cons, hgw]
          rw [h1, h2]
      | some w' =>
          have h1 : aggStep m t = updStats m w' t := by simp [aggStep, hgw]
          by_cases hw : w' = w
          · subst hw
            have h2 : walletTrades (t :: rest) w' = t :: walletTrades rest w' := by
              simp [walletTrades, List.filter_cons, hgw]
            rw [h1, h2]
            simp only [List.map_cons, List.sum_cons]
            have h3 : statVolume (updStats m w' t) w' =
                statVolume m w' + notional t := by
              simp [statVolume, findStats_updStats_self, bumpStats]
            rw [h3]
            ring
          · have h2 : walletTrades (t :: rest) w = walletTrades rest w := by
              simp only [walletTrades, List.filter_cons]
              have : ¬ (getWallet t = some w) := by
                rw [hgw]; intro hc
                exact hw (Option.some.injEq w' w ▸ hc)
              simp [this]
            have h3 : statVolume (updStats m w' t) w = statVolume m w := by
              simp [statVolume,
                findStats_updStats_other m w' w t (fun hc => hw hc.symm)]
            rw [h1, h2, h3]

theorem aggregate_foldl_count (ts : List Trade4) :
    ∀ (m : List (String × WStats)) (w : String),
      statCount (ts.foldl aggStep m) w =
        statCount m w + (walletTrades ts w).length := by
  induction ts with
  | nil => intro m w; simp [walletTrades]
  | cons t rest ih =>
      intro m w
      simp only [List.foldl_cons]
      rw [ih]
      cases hgw : getWallet t with
      | none =>
          have h1 : aggStep m t = m := by simp [aggStep, hgw]
          have h2 : walletTrades (t :: rest) w = walletTrades rest w := by
            simp [walletTrades, List.filter_cons, hgw]
          rw [h1, h2]
      | some w' =>
          have h1 : aggStep m t = updStats m w' t := by simp [aggStep, hgw]
          by_cases hw : w' = w
          · subst hw
            have h2 : walletTrades (t :: rest) w' = t :: walletTrades rest w' := by
              simp [walletTrades, List.filter_cons, hgw]
            rw [h1, h2]
            simp only [List.length_cons]
            have h3 : statCount (updStats m w' t) w' =
                statCount m w' + 1 := by
              simp [statCount, findStats_updStats_self, bumpStats]
            rw [h3]
            omega
          · have h2 : walletTrades (t :: rest) w = walletTrades rest w := by
              simp only [walletTrades, List.filter_cons]
              have : ¬ (getWallet t = some w) := by
                rw [hgw]; intro hc
                exact hw (Option.some.injEq w' w ▸ hc)
              simp [this]
            have h3 : statCount (updStats m w' t) w = statCount m w := by
              simp [statCount,
                findStats_updStats_other m w' w t (fun hc => hw hc.symm)]
            rw [h1, h2, h3]

theorem aggregate_foldl_isSome (ts : List Trade4) :
    ∀ (m : List (String × WStats)) (w : String),
      ((∃ t ∈ ts, getWallet t = some w) ∨ (findStats m w).isSome) →
      (findStats (ts.foldl aggStep m) w).isSome := by
  induction ts with
  | nil =>
      intro m w h
      rcases h with ⟨t, ht, _⟩ | h
      · simp at ht
      · exact h
  | cons t rest ih =>
      intro m w h
      simp only [List.foldl_cons]
      have hstep : (findStats m w).isSome →
          (findStats (aggStep m t) w).isSome := by
        intro hs
        cases hgw : getWallet t with
        | none => simpa [aggStep, hgw] using hs
        | some w' =>
            simp only [aggStep, hgw]
            by_cases hw : w' = w
            · subst hw
              rw [findStats_updStats_self]
              simp
            · rw [findStats_updStats_other m w' w t
                (fun hc => hw hc.symm)]
              exact hs
      rcases h with ⟨u, hu, hgu⟩ | h
      · rcases List.mem_cons.mp hu with rfl | humem
        · refine ih (aggStep m u) w (Or.inr ?_)
          simp only [aggStep, hgu]
          rw [findStats_updStats_self]
          simp
        · exact ih (aggStep m t) w (Or.inl ⟨u, humem, hgu⟩)
      · exact ih (aggStep m t) w (Or.inr (hstep h))

theorem aggregate_filter_wallet (ts : List Trade4) :
    ∀ m : List (String × WStats), ts.foldl aggStep m =
      (ts.filter (fun t => (getWallet t).isSome)).foldl aggStep m := by
  induction ts with
  | nil => intro m; rfl
  | cons t rest ih =>
      intro m
      simp only [List.foldl_cons, List.filter_cons]
      cases hgw : getWallet t with
      | none =>
          have h1 : aggStep m t = m := by simp [aggStep, hgw]
          simp only [hgw, Option.isSome_none, Bool.false_eq_true,
            if_false, h1]
          exact ih m
      | some w =>
          simp only [hgw, Option.isSome_some, if_true, List.foldl_cons]
          exact ih (aggStep m t)

/-- Claim C3: `aggregate` is a pure deterministic fold: every wallet
appearing in the trade list gets a stats entry whose volume is the sum
of `size*price` over exactly that wallet's trades and whose trade count
is the number of those trades; trades without a usable wallet leave the
map untouched and contribute to no wallet's stats; and re-running the
(pure) aggregation gives the same result. -/
theorem aggregate_correct_c3 (trades : List Trade4) (w : String)
    (hw : ∃ t ∈ trades, getWallet t = some w) :
    (∃ s, findStats (aggregate trades) w = some s ∧
      s.volume = ((walletTrades trades w).map notional).sum ∧
      s.trade_count = (walletTrades trades w).length) ∧
    (∀ (t : Trade4) (rest : List Trade4), getWallet t = none →
      aggregate (t :: rest) = aggregate rest) ∧
    aggregate trades =
      aggregate (trades.filter (fun t => (getWallet t).isSome)) ∧
    aggregate trades = aggregate trades := by
  refine ⟨?_, ?_, aggregate_filter_wallet trades [], rfl⟩
  · have hsome : (findStats (aggregate trades) w).isSome :=
      aggregate_foldl_isSome trades [] w (Or.inl hw)
    obtain ⟨s, hs⟩ := Option.isSome_iff_exists.mp hsome
    refine ⟨s, hs, ?_, ?_⟩
    · have hv := aggregate_foldl_volume trades [] w
      have hs2 : findStats (trades.foldl aggStep []) w = some s := hs
      rw [statVolume, statVolume, hs2] at hv
      simpa [findStats, initStats] using hv
    · have hcnt := aggregate_foldl_count trades [] w
      have hs2 : findStats (trades.foldl aggStep []) w = some s := hs
      rw [statCount, statCount, hs2] at hcnt
      simpa [findStats, initStats] using hcnt
  · intro t rest hgw
    simp [aggregate, aggStep, hgw]

theorem aggregate_correct_c3_witness :
    ∃ s, findStats (aggregate [⟨some "a", some 2, some (1/2), some "m", 0⟩]) "a"
        = some s ∧
      s.volume = ((walletTrades [⟨some "a", some 2, some (1/2), some "m", 0⟩] "a").map
        notional).sum ∧
      s.trade_count =
        (walletTrades [⟨some "a", some 2, some (1/2), some "m", 0⟩] "a").length :=
  (aggregate_correct_c3 [⟨some "a", some 2, some (1/2), some "m", 0⟩] "a"
    (by decide)).1

/-! ### Leader selection (`leader_finder_v4.py` / `leader_finder_v2.py`) -/

theorem slStep_foldl_spec (stats : List (String × WStats)) :
    ∀ acc : List String × List String,
      stats.foldl slStep acc =
        (acc.1 ++ (stats.filter (fun p => isWhale4 p.2)).map Prod.fst,
         acc.2 ++ (stats.filter
           (fun p => !isWhale4 p.2 && isTrader4 p.2)).map Prod.fst) := by
  induction stats with
  | nil => intro acc; simp
  | cons p rest ih =>
      intro acc
      simp only [List.foldl_cons, List.filter_cons]
      cases hwh : isWhale4 p.2 with
      | true =>
          rw [show slStep acc p = (acc.1 ++ [p.1], acc.2) from by
            simp [slStep, hwh]]
          rw [ih]
          simp [hwh, List.append_assoc]
      | false =>
          cases htr : isTrader4 p.2 with
          | true =>
              rw [show slStep acc p = (acc.1, acc.2 ++ [p.1]) from by
                simp [slStep, hwh, htr]]
              rw [ih]
              simp [hwh, htr, List.append_assoc]
          | false =>
              rw [show slStep acc p = acc from by simp [slStep, hwh, htr]]
              rw [ih]
              simp [hwh, htr]

theorem mem_insDesc (x : V2Entry) (l : List V2Entry) (a : V2Entry) :
    a ∈ insDesc x l ↔ a = x ∨ a ∈ l := by
  induction l with
  | nil => simp [insDesc]
  | cons y rest ih =>
      by_cases hle : y.volume_usdc ≤ x.volume_usdc
      · simp [insDesc, hle]
      · simp only [insDesc, if_neg hle, List.mem_cons, ih]
        tauto

theorem mem_sortVolDesc (l : List V2Entry) (a : V2Entry) :
    a ∈ sortVolDesc l ↔ a ∈ l := by
  induction l with
  | nil => simp [sortVolDesc]
  | cons x rest ih =>
      simp [sortVolDesc, mem_insDesc, ih]

/-- Claim C1: when at least one wallet meets all whale thresholds, the
selection is whale-only: the v4 `select_leaders` returns mode WHALES
with exactly the whale-qualifying wallets (every one of them meets the
whale thresholds) and the trader list is discarded; likewise the v2
cascade reports only whales and leaves the qualified list empty,
without running the qualified stage. -/
theorem whale_priority_c1 (stats : List (String × WStats))
    (es : List V2Entry)
    (h4 : ∃ p ∈ stats, isWhale4 p.2 = true)
    (h2 : select_whales es ≠ []) :
    (select_leaders stats).1 = "WHALES" ∧
    (select_leaders stats).2 =
      (stats.filter (fun p => isWhale4 p.2)).map Prod.fst ∧
    (∀ w ∈ (select_leaders stats).2,
      ∃ s, (w, s) ∈ stats ∧ isWhale4 s = true) ∧
    (v2_main_select es).2 = [] ∧
    (∀ e ∈ (v2_main_select es).1, whaleCrit e = true) := by
  have hfold := slStep_foldl_spec stats ([], [])
  simp only [List.nil_append] at hfold
  have hne : (stats.filter (fun p => isWhale4 p.2)).map Prod.fst ≠ [] := by
    obtain ⟨p, hp, hwh⟩ := h4
    intro hc
    have hmem2 : p ∈ stats.filter (fun p => isWhale4 p.2) :=
      List.mem_filter.mpr ⟨hp, hwh⟩
    rw [List.map_eq_nil_iff.mp hc] at hmem2
    exact List.not_mem_nil p hmem2
  have hsel : select_leaders stats =
      ("WHALES", (stats.filter (fun p => isWhale4 p.2)).map Prod.fst) := by
    simp only [select_leaders, hfold]
    rw [if_neg (by simpa [List.isEmpty_iff] using hne)]
  refine ⟨by rw [hsel], by rw [hsel], ?_, ?_, ?_⟩
  · intro w hwmem
    rw [hsel] at hwmem
    simp only [List.mem_map] at hwmem
    obtain ⟨p, hpfil, hpw⟩ := hwmem
    obtain ⟨hpmem, hwh⟩ := List.mem_filter.mp hpfil
    exact ⟨p.2, by rw [← hpw]; exact hpmem, by simpa using hwh⟩
  · simp only [v2_main_select]
    rw [if_neg (by simpa [List.isEmpty_iff] using h2)]
  · intro e he
    simp only [v2_main_select] at he
    rw [if_neg (by simpa [List.isEmpty_iff] using h2)] at he
    simp only [] at he
    have : e ∈ select_whales es := List.take_subset 10 _ he
    rw [select_whales, mem_sortVolDesc] at this
    exact (List.mem_filter.mp this).2

theorem whale_priority_c1_witness :
    (select_leaders [("a", ⟨60000, 25, ["m1", "m2", "m3", "m4"]⟩)]).1 =
      "WHALES" :=
  (whale_priority_c1 [("a", ⟨60000, 25, ["m1", "m2", "m3", "m4"]⟩)]
    [⟨"a", 60000, 25, 4, []⟩] (by decide) (by decide)).1

/-! ### LRU dedup claims -/

/-- At full capacity, a fresh token evicts exactly the oldest. -/
theorem add_if_new_evict (s : LruSeen) (token old : String)
    (rest : List String) (hdq : s.dq = old :: rest)
    (htok : token ∉ s.seen) (hfull : s.dq.length = s.maxlen) :
    add_if_new s token = some (true, ⟨s.maxlen, rest ++ [token],
      insert token (s.seen.erase old)⟩) := by
  obtain ⟨N, dq, seen⟩ := s
  simp only [] at hdq htok hfull ⊢
  subst hdq
  simp only [add_if_new, if_neg htok, if_pos hfull]

/-- Claim C9: after every sequence of `add_if_new` calls on a
capacity-`N` structure, the membership set holds exactly the tokens of
the deque, the size never exceeds `N`, and once `N` tokens are tracked
an insertion of a fresh token evicts exactly the oldest tracked token. -/
theorem lru_bounded_consistent_c9 (N : Nat) (hN : 0 < N)
    (toks : List String) :
    (addSeq (LruSeen.init N) toks).seen =
      (addSeq (LruSeen.init N) toks).dq.toFinset ∧
    (addSeq (LruSeen.init N) toks).dq.length ≤ N ∧
    ∀ token, token ∉ (addSeq (LruSeen.init N) toks).seen →
      (addSeq (LruSeen.init N) toks).dq.length = N →
      ∃ old rest, (addSeq (LruSeen.init N) toks).dq = old :: rest ∧
        add_if_new (addSeq (LruSeen.init N) toks) token =
          some (true, ⟨N, rest ++ [token],
            insert token (((addSeq (LruSeen.init N) toks).seen).erase old)⟩) := by
  have hinit : LruInv (LruSeen.init N) :=
    ⟨by simp [LruSeen.init], by simp [LruSeen.init], by simp [LruSeen.init]⟩
  have hrun := addSeq_inv toks (LruSeen.init N) hinit
    (by simpa [LruSeen.init] using hN)
  obtain ⟨⟨hset, hnd, hlen⟩, hmax⟩ := hrun
  have hmaxN : (addSeq (LruSeen.init N) toks).maxlen = N := by
    simpa [LruSeen.init] using hmax
  refine ⟨hset, le_trans hlen (le_of_eq hmaxN), ?_⟩
  intro token htok hfull
  cases hdq : (addSeq (LruSeen.init N) toks).dq with
  | nil =>
      rw [hdq] at hfull
      simp at hfull
      omega
  | cons old rest =>
      refine ⟨old, rest, rfl, ?_⟩
      have := add_if_new_evict (addSeq (LruSeen.init N) toks) token old rest
        hdq htok (by rw [hfull, hmaxN])
      rw [hmaxN] at this
      exact this

theorem lru_bounded_consistent_c9_witness :
    (addSeq (LruSeen.init 1) ["a", "b"]).dq.length ≤ 1 :=
  (lru_bounded_consistent_c9 1 (by decide) ["a", "b"]).2.1

/-- Claim C8: presenting the same dedup identity token twice results in
exactly one tracked entry: the first `add_if_new` for the token returns
`True` and tracks it once, the immediately repeated call returns `False`
without any state change, and `_on_message` appends the record to the
log exactly once. -/
theorem dedup_idempotent_c8 (s : LruSeen) (log : List RtdsRec)
    (rec : RtdsRec) (hinv : LruInv s) (hpos : 0 < s.maxlen)
    (hnew : make_dedup_token rec ∉ s.seen) :
    ∃ s2, add_if_new s (make_dedup_token rec) = some (true, s2) ∧
      add_if_new s2 (make_dedup_token rec) = some (false, s2) ∧
      s2.dq.count (make_dedup_token rec) = 1 ∧
      on_message_write s log rec = some (s2, log ++ [rec]) ∧
      on_message_write s2 (log ++ [rec]) rec = some (s2, log ++ [rec]) := by
  obtain ⟨s2, hadd, hinv2, hmem2, hcount, hmax2⟩ :=
    add_if_new_fresh s (make_dedup_token rec) hinv hpos hnew
  have hdup := add_if_new_dup s2 (make_dedup_token rec) hmem2
  refine ⟨s2, hadd, hdup, hcount, ?_, ?_⟩
  · simp only [on_message_write, hadd]
  · simp only [on_message_write, hdup]

theorem dedup_idempotent_c8_witness :
    ∃ s2, add_if_new (LruSeen.init 3)
        (make_dedup_token ⟨none, none, none, none, none, none, none⟩) =
        some (true, s2) ∧
      add_if_new s2
        (make_dedup_token ⟨none, none, none, none, none, none, none⟩) =
        some (false, s2) ∧
      s2.dq.count (make_dedup_token ⟨none, none, none, none, none, none, none⟩) = 1 ∧
      on_message_write (LruSeen.init 3) []
        ⟨none, none, none, none, none, none, none⟩ =
        some (s2, [] ++ [⟨none, none, none, none, none, none, none⟩]) ∧
      on_message_write s2 ([] ++ [⟨none, none, none, none, none, none, none⟩])
        ⟨none, none, none, none, none, none, none⟩ =
        some (s2, [] ++ [⟨none, none, none, none, none, none, none⟩]) :=
  dedup_idempotent_c8 (LruSeen.init 3) []
    ⟨none, none, none, none, none, none, none⟩
    ⟨by simp [LruSeen.init], by simp [LruSeen.init], by simp [LruSeen.init]⟩
    (by decide) (by decide)

/-! ### Qualified-stage category gate (`leader_finder_v2.py`) -/

/-- Claim C4 as stated fails on the code: a wallet meeting all three
relaxed thresholds whose only category is the no-information sentinel
`get_category` of a category-less market (the string `"—"`) is excluded
by `select_qualified`, not selected — the category gate is not skipped
for it. -/
theorem qualified_no_category_c4_counterexample :
    traderCrit ⟨"w", 2000, 6, 2, [get_category ⟨none⟩]⟩ = true ∧
    catHit ⟨"w", 2000, 6, 2, [get_category ⟨none⟩]⟩ = false ∧
    select_qualified [⟨"w", 2000, 6, 2, [get_category ⟨none⟩]⟩] = [] := by
  decide

/-- Claim C4 amended: the category allow-list gate applies to every
wallet of the qualified stage — every selected wallet meets the relaxed
thresholds and has a category in the allow-list — so a wallet whose only
category is the no-information sentinel `"—"` is excluded rather than
selected. -/
theorem qualified_no_category_c4 (es : List V2Entry) (e : V2Entry) :
    (e ∈ select_qualified es → traderCrit e = true ∧ catHit e = true) ∧
    (e.categories = [get_category ⟨none⟩] → e ∉ select_qualified es) := by
  constructor
  · intro hsel
    rw [select_qualified, mem_sortVolDesc] at hsel
    have hcrit := (List.mem_filter.mp hsel).2
    simp only [Bool.and_eq_true] at hcrit
    exact hcrit
  · intro hcat hsel
    rw [select_qualified, mem_sortVolDesc] at hsel
    have hcrit := (List.mem_filter.mp hsel).2
    simp only [Bool.and_eq_true] at hcrit
    have hhit : catHit e = true := hcrit.2
    rw [catHit, hcat] at hhit
    revert hhit
    decide

theorem qualified_no_category_c4_witness :
    traderCrit ⟨"a", 2000, 6, 2, ["Politics"]⟩ = true ∧
    catHit ⟨"a", 2000, 6, 2, ["Politics"]⟩ = true :=
  (qualified_no_category_c4 [⟨"a", 2000, 6, 2, ["Politics"]⟩]
    ⟨"a", 2000, 6, 2, ["Politics"]⟩).1 (by decide)

/-! ### Timestamp normalization (`parse_trade_datetime_utc`) -/

/-- Claim C5 as stated fails on the code in a non-UTC environment: with
a local offset of +3600 s the same wall-clock ISO string parses to
different instants with and without the trailing `Z`, because
`astimezone` interprets a naive datetime in the system local timezone. -/
theorem timestamp_iso_c5_counterexample :
    parse_trade_datetime_utc 3600
        ⟨none, some (IsoStr.withZ 1700000000), none, none, none, none,
         none, none, none, none⟩ = some 1700000000 ∧
    parse_trade_datetime_utc 3600
        ⟨none, some (IsoStr.noTz 1700000000), none, none, none, none,
         none, none, none, none⟩ = some (1700000000 - 3600) ∧
    (some (1700000000 : ℚ) : Option ℚ) ≠ some (1700000000 - 3600) := by
  refine ⟨?_, ?_, ?_⟩
  · simp [parse_trade_datetime_utc, tryIso, isoToUtc]
  · simp only [parse_trade_datetime_utc, tryIso, isoToUtc,
      Option.some.injEq]
    norm_num
  · simp only [ne_eq, Option.some.injEq]
    norm_num

/-- Claim C5 amended: an integer timestamp below `10^10` is taken as
seconds and one at or above `10^10` as milliseconds; a `Z`-suffixed ISO
string is converted to UTC while a bare (naive) ISO string is
interpreted in the system local timezone — the two forms denote the
same instant exactly when the local offset is zero; and a record whose
timestamp parses under none of these forms yields no instant and is
dropped by the aggregation guard, never defaulted. -/
theorem timestamp_normalization_c5 (localOff : Int) (t : RawTrade)
    (meta : List (String × Market)) :
    (∀ n : Int, t.timestamp = some (some n) → n < 10000000000 →
      parse_trade_datetime_utc localOff t = some (n : ℚ)) ∧
    (∀ n : Int, t.timestamp = some (some n) → 10000000000 ≤ n →
      parse_trade_datetime_utc localOff t = some ((n : ℚ) / 1000)) ∧
    (∀ x : ℚ, parse_trade_datetime_utc localOff
        ⟨none, some (IsoStr.withZ x), none, none, none, none, none,
         none, none, none⟩ = some x) ∧
    (∀ x : ℚ, parse_trade_datetime_utc localOff
        ⟨none, some (IsoStr.noTz x), none, none, none, none, none,
         none, none, none⟩ = some (x - (localOff : ℚ))) ∧
    (localOff = 0 → ∀ x : ℚ,
      parse_trade_datetime_utc localOff
        ⟨none, some (IsoStr.withZ x), none, none, none, none, none,
         none, none, none⟩ =
      parse_trade_datetime_utc localOff
        ⟨none, some (IsoStr.noTz x), none, none, none, none, none,
         none, none, none⟩) ∧
    (parse_trade_datetime_utc localOff t = none →
      v2_admits localOff meta t = false) := by
  refine ⟨?_, ?_, ?_, ?_, ?_, ?_⟩
  · intro n hts hlt
    simp [parse_trade_datetime_utc, hts, hlt]
  · intro n hts hge
    simp [parse_trade_datetime_utc, hts, not_lt.mpr hge]
  · intro x
    simp [parse_trade_datetime_utc, tryIso, isoToUtc]
  · intro x
    simp [parse_trade_datetime_utc, tryIso, isoToUtc]
  · intro h0 x
    subst h0
    simp [parse_trade_datetime_utc, tryIso, isoToUtc]
  · intro hnone
    rw [v2_admits]
    cases hc : t.conditionId with
    | none => rfl
    | some c =>
        by_cases hce : c = ""
        · simp [hce]
        · simp only [if_neg hce]
          cases metaLookup meta c with
          | none => rfl
          | some m =>
              cases normalize_wallet t with
              | none => rfl
              | some w => simp [hnone]

theorem timestamp_normalization_c5_witness :
    parse_trade_datetime_utc 0
      ⟨some (some 5), none, none, none, none, none, none, none, none,
       none⟩ = some 5 :=
  (timestamp_normalization_c5 0
    ⟨some (some 5), none, none, none, none, none, none, none, none, none⟩
    []).1 5 rfl (by decide)

/-! ### Paginated fetch lemmas -/

theorem inWin_iff (lo : Int) (cutoff : ℚ) (r : RawTrade) :
    inWin lo cutoff r = true ↔
      ∃ t, parse_trade_datetime_utc lo r = some t ∧ cutoff ≤ t := by
  rw [inWin]
  cases hp : parse_trade_datetime_utc lo r with
  | none => simp
  | some t => simp

theorem scanU_req_le (pU : Nat → List RawTrade) (lo : Int) (cutoff : ℚ) :
    ∀ (f i : Nat), 51 - i = f → ∀ (acc : List RawTrade) (req : Nat),
      (scanU pU lo cutoff i acc req).2 ≤ req + f := by
  intro f
  induction f with
  | zero =>
      intro i hf acc req
      rw [scanU.eq_def, dif_neg (by omega : ¬ i ≤ 50)]
      omega
  | succ g ih =>
      intro i hf acc req
      by_cases hle : i ≤ 50
      · rw [scanU.eq_def, dif_pos hle]
        by_cases hbe : (pU i).isEmpty = true
        · rw [if_pos hbe]
          omega
        · rw [if_neg hbe]
          by_cases hstop : 3 ≤ i ∧
              (acc ++ (pU i).filter (inWin lo cutoff)).isEmpty = true
          · rw [if_pos hstop]
            omega
          · rw [if_neg hstop]
            have := ih (i + 1) (by omega)
              (acc ++ (pU i).filter (inWin lo cutoff)) (req + 1)
            omega
      · rw [scanU.eq_def, dif_neg hle]
        omega

theorem scanU_collected_inwin (pU : Nat → List RawTrade) (lo : Int)
    (cutoff : ℚ) :
    ∀ (f i : Nat), 51 - i = f → ∀ (acc : List RawTrade) (req : Nat),
      ∀ r ∈ (scanU pU lo cutoff i acc req).1,
        r ∈ acc ∨ inWin lo cutoff r = true := by
  intro f
  induction f with
  | zero =>
      intro i hf acc req r hr
      rw [scanU.eq_def, dif_neg (by omega : ¬ i ≤ 50)] at hr
      exact Or.inl hr
  | succ g ih =>
      intro i hf acc req r hr
      by_cases hle : i ≤ 50
      · rw [scanU.eq_def, dif_pos hle] at hr
        by_cases hbe : (pU i).isEmpty = true
        · rw [if_pos hbe] at hr
          exact Or.inl hr
        · rw [if_neg hbe] at hr
          by_cases hstop : 3 ≤ i ∧
              (acc ++ (pU i).filter (inWin lo cutoff)).isEmpty = true
          · rw [if_pos hstop] at hr
            rcases List.mem_append.mp hr with h | h
            · exact Or.inl h
            · exact Or.inr (List.mem_filter.mp h).2
          · rw [if_neg hstop] at hr
            rcases ih (i + 1) (by omega) _ (req + 1) r hr with h | h
            · rcases List.mem_append.mp h with h2 | h2
              · exact Or.inl h2
              · exact Or.inr (List.mem_filter.mp h2).2
            · exact Or.inr h
      · rw [scanU.eq_def, dif_neg hle] at hr
        exact Or.inl hr

theorem oldestBelow_cons (lo : Int) (cutoff : ℚ) (r : RawTrade)
    (l : List RawTrade) (h : l ≠ []) :
    oldestBelow lo cutoff (r :: l) = oldestBelow lo cutoff l := by
  cases l with
  | nil => exact absurd rfl h
  | cons b l2 =>
      rw [oldestBelow, oldestBelow, List.getLast?_cons_cons]

theorem page_allinwin (lo : Int) (cutoff : ℚ) :
    ∀ (l : List RawTrade),
      (∀ r ∈ l, (parse_trade_datetime_utc lo r).isSome) →
      (l.filterMap (parse_trade_datetime_utc lo)).Chain' (· ≥ ·) →
      oldestBelow lo cutoff l = false →
      ∀ r ∈ l, inWin lo cutoff r = true := by
  intro l
  induction l with
  | nil => intro _ _ _ r hr; simp at hr
  | cons a l2 ih =>
      intro hparse hchain holdest r hr
      obtain ⟨ta, hta⟩ := Option.isSome_iff_exists.mp
        (hparse a (List.mem_cons_self a l2))
      cases l2 with
      | nil =>
          rcases List.mem_singleton.mp hr with rfl
          rw [oldestBelow] at holdest
          simp only [List.getLast?_singleton, hta] at holdest
          rw [inWin, hta]
          simp only [decide_eq_false_iff_not, not_lt] at holdest
          simpa using holdest
      | cons b l3 =>
          obtain ⟨tb, htb⟩ := Option.isSome_iff_exists.mp
            (hparse b (List.mem_cons_of_mem a (List.mem_cons_self b l3)))
          have hfm : (a :: b :: l3).filterMap (parse_trade_datetime_utc lo) =
              ta :: (b :: l3).filterMap (parse_trade_datetime_utc lo) := by
            simp [List.filterMap_cons, hta]
          have hfm2 : (b :: l3).filterMap (parse_trade_datetime_utc lo) =
              tb :: l3.filterMap (parse_trade_datetime_utc lo) := by
            simp [List.filterMap_cons, htb]
          rw [hfm] at hchain
          have hchain2 := (List.chain'_cons'.mp hchain).2
          have hhead := (List.chain'_cons'.mp hchain).1
          have holdest2 : oldestBelow lo cutoff (b :: l3) = false := by
            rw [← oldestBelow_cons lo cutoff a (b :: l3) (by simp)]
            exact holdest
          have ihall : ∀ r ∈ b :: l3, inWin lo cutoff r = true :=
            ih (fun r hr2 => hparse r (List.mem_cons_of_mem a hr2))
              hchain2 holdest2
          rcases List.mem_cons.mp hr with rfl | hr2
          · have htble : tb ≤ ta := by
              refine hhead tb ?_
              rw [hfm2]
              rfl
            have hb := ihall b (List.mem_cons_self b l3)
            rw [inWin, htb] at hb
            simp only [decide_eq_true_eq] at hb
            rw [inWin, hta]
            simp only [decide_eq_true_eq]
            exact le_trans hb htble
          · exact ihall r hr2

theorem firstBelow_of_allinwin (lo : Int) (cutoff : ℚ)
    (l : List RawTrade)
    (hall : ∀ r ∈ l, inWin lo cutoff r = true) :
    firstBelow lo cutoff l = false := by
  cases l with
  | nil => rfl
  | cons a l2 =>
      have ha := hall a (List.mem_cons_self a l2)
      rw [inWin] at ha
      rw [firstBelow]
      simp only [List.head?_cons]
      cases hp : parse_trade_datetime_utc lo a with
      | none => rfl
      | some t =>
          rw [hp] at ha
          simp only [decide_eq_true_eq] at ha
          simp only [decide_eq_false_iff_not, not_lt]
          exact ha

theorem scanS_run (pS pU : Nat → List RawTrade) (lo : Int) (cutoff : ℚ)
    (k : Nat) (hk : k ≤ 50)
    (hne : ∀ j, j ≤ k → (pS j).isEmpty = false)
    (hold : ∀ j, j < k → oldestBelow lo cutoff (pS j) = false)
    (hfirst : ∀ j, j < k → firstBelow lo cutoff (pS j) = false)
    (hstop : oldestBelow lo cutoff (pS k) = true) :
    ∀ (f i : Nat), k - i = f → i ≤ k →
      ∀ (acc : List RawTrade) (req : Nat),
        scanS pS pU lo cutoff i acc req =
          ⟨acc ++ (((List.range' i (k + 1 - i)).map pS).flatten).filter
              (inWin lo cutoff),
           req + (k + 1 - i), 0, false⟩ := by
  intro f
  induction f with
  | zero =>
      intro i hf hik acc req
      have hik2 : i = k := by omega
      subst hik2
      rw [scanS.eq_def, dif_pos (by omega : i ≤ 50)]
      rw [if_neg (by simp [hne i le_rfl])]
      rw [if_pos hstop]
      have h1 : i + 1 - i = 1 := by omega
      rw [h1]
      simp [List.range', List.filter_append]
  | succ g ihf =>
      intro i hf hik acc req
      have hik2 : i < k := by omega
      rw [scanS.eq_def, dif_pos (by omega : i ≤ 50)]
      rw [if_neg (by simp [hne i (le_of_lt hik2)])]
      rw [if_neg (by simp [hold i hik2])]
      rw [if_neg (by
        rintro ⟨h0, hfb⟩
        rw [hfirst i hik2] at hfb
        exact Bool.false_ne_true hfb)]
      rw [ihf (i + 1) (by omega) (by omega)
        (acc ++ (pS i).filter (inWin lo cutoff)) (req + 1)]
      have h1 : k + 1 - i = (k - i) + 1 := by omega
      have h2 : k + 1 - (i + 1) = k - i := by omega
      rw [h1, h2]
      simp only [List.range', List.map_cons, List.flatten_cons,
        List.filter_append, List.append_assoc, FetchResult.mk.injEq,
        true_and, and_true]
      omega

/-- Claim C6: assuming descending arrival order — every record of pages
0..k parses, each page's parsed timestamps descend, every page before
page k has its oldest (last) record at or after the cutoff, and page k
is the first whose oldest record falls below it — the fetch keeps from
each page exactly the records at or after the cutoff, requests pages
0..k and nothing beyond the first out-of-window page, never falls back,
and every returned record is within the window. -/
theorem fetch_descending_c6 (pS pU : Nat → List RawTrade) (lo : Int)
    (cutoff : ℚ) (k : Nat) (hk : k ≤ 50)
    (hne : ∀ j, j ≤ k → pS j ≠ [])
    (hparse : ∀ j, j ≤ k → ∀ r ∈ pS j,
      (parse_trade_datetime_utc lo r).isSome)
    (hdesc : ∀ j, j ≤ k →
      ((pS j).filterMap (parse_trade_datetime_utc lo)).Chain' (· ≥ ·))
    (hold : ∀ j, j < k → oldestBelow lo cutoff (pS j) = false)
    (hstop : oldestBelow lo cutoff (pS k) = true) :
    fetch_trades_global_24h pS pU lo cutoff =
      ⟨(((List.range (k + 1)).map pS).flatten).filter (inWin lo cutoff),
       k + 1, 0, false⟩ ∧
    ∀ r ∈ (fetch_trades_global_24h pS pU lo cutoff).collected,
      ∃ t, parse_trade_datetime_utc lo r = some t ∧ cutoff ≤ t := by
  have hne2 : ∀ j, j ≤ k → (pS j).isEmpty = false := by
    intro j hj
    cases hpj : pS j with
    | nil => exact absurd hpj (hne j hj)
    | cons a l => rfl
  have hfirst : ∀ j, j < k → firstBelow lo cutoff (pS j) = false := by
    intro j hj
    refine firstBelow_of_allinwin lo cutoff (pS j) ?_
    exact page_allinwin lo cutoff (pS j) (hparse j (le_of_lt hj))
      (hdesc j (le_of_lt hj)) (hold j hj)
  have hrun := scanS_run pS pU lo cutoff k hk hne2 hold hfirst hstop
    k 0 (by omega) (by omega) [] 0
  have hfetch : fetch_trades_global_24h pS pU lo cutoff =
      ⟨(((List.range (k + 1)).map pS).flatten).filter (inWin lo cutoff),
       k + 1, 0, false⟩ := by
    rw [fetch_trades_global_24h, hrun]
    simp [List.range_eq_range']
  refine ⟨hfetch, ?_⟩
  intro r hr
  rw [hfetch] at hr
  exact (inWin_iff lo cutoff r).mp (List.mem_filter.mp hr).2

/-- Claim C7 as stated fails on the code: on a page 0 that contains
only records older than the cutoff, the sorted loop stops at once on
the oldest-below check — one page request, empty result, no fallback —
instead of switching to the unordered scan. -/
theorem fetch_fallback_c7_counterexample :
    fetch_trades_global_24h
        (fun i => if i = 0 then
          [⟨some (some 5), none, none, none, none, none, none, none,
            none, none⟩] else [])
        (fun _ =>
          [⟨some (some 30), none, none, none, none, none, none, none,
            none, none⟩])
        0 20 = ⟨[], 1, 0, false⟩ ∧
    (fun i : Nat => if i = 0 then
        [(⟨some (some 5), none, none, none, none, none, none, none,
          none, none⟩ : RawTrade)] else []) 0 =
      [⟨some (some 5), none, none, none, none, none, none, none,
        none, none⟩] ∧
    parse_trade_datetime_utc 0
      ⟨some (some 5), none, none, none, none, none, none, none,
       none, none⟩ = some 5 ∧
    (5 : ℚ) < 20 := by
  refine ⟨?_, rfl, by norm_num [parse_trade_datetime_utc], by norm_num⟩
  rw [fetch_trades_global_24h, scanS.eq_def]
  norm_num [oldestBelow, inWin, parse_trade_datetime_utc]

/-- Claim C7 amended: the ordering-violation fallback triggers when
page 0's first record is below the cutoff while its oldest (last)
record is not — the code's actual inconsistency test: the fetch then
returns the unordered scan's result, in which every record was filtered
individually against the cutoff, and the scan makes at most 51 page
requests (the `TRADES_MAX_OFFSET` ceiling), so the loop terminates; a
page 0 of nothing but stale records instead stops immediately without
any fallback. -/
theorem fetch_fallback_c7 (pS pU : Nat → List RawTrade) (lo : Int)
    (cutoff : ℚ)
    (hne : (pS 0).isEmpty = false)
    (hold : oldestBelow lo cutoff (pS 0) = false)
    (hfirst : firstBelow lo cutoff (pS 0) = true) :
    fetch_trades_global_24h pS pU lo cutoff =
      ⟨(scanU pU lo cutoff 0 [] 0).1, 1,
       (scanU pU lo cutoff 0 [] 0).2, true⟩ ∧
    (∀ r ∈ (scanU pU lo cutoff 0 [] 0).1,
      ∃ t, parse_trade_datetime_utc lo r = some t ∧ cutoff ≤ t) ∧
    (scanU pU lo cutoff 0 [] 0).2 ≤ 51 := by
  refine ⟨?_, ?_, ?_⟩
  · rw [fetch_trades_global_24h, scanS.eq_def]
    rw [dif_pos (by omega : (0 : Nat) ≤ 50)]
    rw [if_neg (by simp [hne])]
    rw [if_neg (by simp [hold])]
    rw [if_pos ⟨rfl, hfirst⟩]
  · intro r hr
    rcases scanU_collected_inwin pU lo cutoff 51 0 rfl [] 0 r hr with h | h
    · simp at h
    · exact (inWin_iff lo cutoff r).mp h
  · simpa using scanU_req_le pU lo cutoff 51 0 rfl [] 0

theorem fetch_descending_c6_witness :
    fetch_trades_global_24h
        (fun i => if i = 0 then
          [⟨some (some 100), none, none, none, none, none, none, none,
            none, none⟩]
          else if i = 1 then
          [⟨some (some 50), none, none, none, none, none, none, none,
            none, none⟩,
           ⟨some (some 10), none, none, none, none, none, none, none,
            none, none⟩]
          else [])
        (fun _ => []) 0 20 =
      ⟨(((List.range 2).map (fun i => if i = 0 then
          [(⟨some (some 100), none, none, none, none, none, none, none,
            none, none⟩ : RawTrade)]
          else if i = 1 then
          [⟨some (some 50), none, none, none, none, none, none, none,
            none, none⟩,
           ⟨some (some 10), none, none, none, none, none, none, none,
            none, none⟩]
          else [])).flatten).filter (inWin 0 20),
       2, 0, false⟩ :=
  (fetch_descending_c6
    (fun i => if i = 0 then
      [⟨some (some 100), none, none, none, none, none, none, none,
        none, none⟩]
      else if i = 1 then
      [⟨some (some 50), none, none, none, none, none, none, none,
        none, none⟩,
       ⟨some (some 10), none, none, none, none, none, none, none,
        none, none⟩]
      else [])
    (fun _ => []) 0 20 1 (by omega)
    (by decide) (by decide)
    (by
      intro j hj
      interval_cases j
      · show List.Chain' (· ≥ ·) [((100 : Int) : ℚ)]
        simp
      · show List.Chain' (· ≥ ·) [((50 : Int) : ℚ), ((10 : Int) : ℚ)]
        simp only [List.chain'_cons, List.chain'_singleton, and_true]
        norm_num)
    (by decide) (by decide)).1

theorem fetch_fallback_c7_witness :
    fetch_trades_global_24h
        (fun i => if i = 0 then
          [⟨some (some 5), none, none, none, none, none, none, none,
            none, none⟩,
           ⟨some (some 30), none, none, none, none, none, none, none,
            none, none⟩]
          else [])
        (fun i => if i = 0 then
          [⟨some (some 25), none, none, none, none, none, none, none,
            none, none⟩]
          else []) 0 20 =
      ⟨(scanU (fun i => if i = 0 then
          [(⟨some (some 25), none, none, none, none, none, none, none,
            none, none⟩ : RawTrade)]
          else []) 0 20 0 [] 0).1, 1,
       (scanU (fun i => if i = 0 then
          [(⟨some (some 25), none, none, none, none, none, none, none,
            none, none⟩ : RawTrade)]
          else []) 0 20 0 [] 0).2, true⟩ :=
  (fetch_fallback_c7
    (fun i => if i = 0 then
      [⟨some (some 5), none, none, none, none, none, none, none,
        none, none⟩,
       ⟨some (some 30), none, none, none, none, none, none, none,
        none, none⟩]
      else [])
    (fun i => if i = 0 then
      [⟨some (some 25), none, none, none, none, none, none, none,
        none, none⟩]
      else []) 0 20 (by decide) (by decide) (by decide)).1

end PolyBot
